import Mathlib

/-!
# A shallow embedding of `byte_buffer` (helins/byte_buffer.cpp)

The C++ class `byte_buffer` (`src/src/byte_buffer.hpp`, `src/byte_buffer_impl.cpp`)
is a cursor over a borrowed region of bytes.  The embedding below follows the
implementation file function by function.

Conventions of the embedding.

* Memory is a flat map from addresses to bytes (`Mem`).  A pointer is an
  address; a possibly null pointer is an `Option Nat` (`none` is `nullptr`).
* The private members `_capacity`, `_position`, `_limit` are `uint16_t`; they
  are natural numbers here and `byte_buffer.wf` records that they are below
  `2 ^ 16`.
* An element type `T` is represented by `s = sizeof( T )`; a value of type
  `T` is its object representation, a list of `s` bytes.
* Integer arithmetic follows the usual arithmetic conversions on a platform
  where `int` has 32 bits and `size_t` has 64 bits: an expression over
  `uint16_t` operands only is computed in `int` (exactly, the operands being
  below `2 ^ 16`), an expression with a `sizeof` operand is computed in
  `size_t`, modulo `2 ^ 64`, and a result stored in a `uint16_t` is reduced
  modulo `2 ^ 16`.
* A `const T*` argument of `n` values is a function from the index to the
  value (the array read by `values[i]`); it is not part of the memory the
  buffer writes to.
-/

namespace ByteBuffer

/-- Modulus of the type `uint16_t`. -/
def U16_MOD : Nat := 65536

/-- Modulus of the type `size_t` (64 bits). -/
def SIZE_MOD : Nat := 18446744073709551616

/-- Conversion of an `int` to `uint16_t`. -/
def to_u16 (x : Int) : Nat := (x % 65536).toNat

/-- Conversion of an `int` to `size_t`. -/
def to_size (x : Int) : Nat := (x % 18446744073709551616).toNat

/-- Product `n * sizeof( T )`, computed in `size_t`. -/
def size_mul (n s : Nat) : Nat := (n * s) % SIZE_MOD

/-- Difference `a - c` of two `size_t` values, computed in `size_t`. -/
def size_sub (a c : Nat) : Nat := to_size ((a : Int) - (c : Int))

/-- Flat byte memory: address to byte. -/
abbrev Mem := Nat → Nat

/-- Assignment `*reinterpret_cast< T* >( addr ) = value` for a `T` of `s` bytes. -/
def store (m : Mem) (addr s : Nat) (value : List Nat) : Mem :=
  fun a => if addr ≤ a ∧ a < addr + s then value.getD (a - addr) 0 else m a

/-- The value of type `T` (`s` bytes) a `const T*` equal to `addr` points to. -/
def load (m : Mem) (addr s : Nat) : List Nat :=
  (List.range s).map (fun j => m (addr + j))

/-- The `n` values of type `T` (`s` bytes each) a `const T*` equal to `addr`
points to. -/
def load_values (m : Mem) (addr s n : Nat) : List (List Nat) :=
  (List.range n).map (fun i => load m (addr + i * s) s)

/-- The private members of the class `byte_buffer`. -/
structure byte_buffer where
  _buffptr : Nat
  _read_only : Bool
  _capacity : Nat
  _position : Nat
  _limit : Nat
deriving DecidableEq, Repr

/-- The `uint16_t` members hold values below `2 ^ 16`. -/
def byte_buffer.wf (b : byte_buffer) : Prop :=
  b._capacity < 65536 ∧ b._position < 65536 ∧ b._limit < 65536

instance (b : byte_buffer) : Decidable b.wf := by
  unfold byte_buffer.wf; infer_instance

/-- Public constructor `byte_buffer( buffptr, capacity, offset, read_only )`. -/
def byte_buffer.from_array (buffptr capacity offset : Nat) (read_only : Bool) :
    byte_buffer :=
  { _buffptr := buffptr + offset
    _read_only := read_only
    _capacity := capacity
    _limit := capacity
    _position := 0 }

/-- Public constructor `byte_buffer( copy, capacity, offset, read_only )`. -/
def byte_buffer.from_buffer (copy : byte_buffer) (capacity offset : Nat)
    (read_only : Bool) : byte_buffer :=
  let cap := if copy._capacity < capacity then copy._capacity else capacity
  { _buffptr := copy._buffptr + offset
    _read_only := copy._read_only || read_only
    _capacity := cap
    _limit := cap
    _position := 0 }

/-- Method `clear()`. -/
def clear (b : byte_buffer) : byte_buffer :=
  { b with _position := 0, _limit := b._capacity }

/-- Method `flip()`. -/
def flip (b : byte_buffer) : byte_buffer :=
  { b with _limit := b._position, _position := 0 }

/-- Method `capacity< T >()`, with `s = sizeof( T )`. -/
def capacity (s : Nat) (b : byte_buffer) : Nat :=
  (to_size b._capacity / s) % U16_MOD

/-- Method `limit< T >()` (the getter), with `s = sizeof( T )`. -/
def limit_get (s : Nat) (b : byte_buffer) : Nat :=
  (to_size b._limit / s) % U16_MOD

/-- Method `limit< T >( new_limit )` (the setter): the returned `uint16_t` and
the buffer afterwards. -/
def limit (s : Nat) (new_limit : Nat) (b : byte_buffer) : Nat × byte_buffer :=
  let new_limit := size_mul new_limit s % U16_MOD
  if new_limit ≤ b._capacity then
    (0, { b with _limit := new_limit })
  else
    (to_u16 ((new_limit : Int) - (b._capacity : Int)), b)

/-- Method `position()` (the getter). -/
def position_get (b : byte_buffer) : Nat := b._position

/-- Method `position< T >( new_pos )` (the setter): the returned `uint16_t`
and the buffer afterwards. -/
def position (s : Nat) (new_pos : Nat) (b : byte_buffer) : Nat × byte_buffer :=
  let new_pos := size_mul new_pos s % U16_MOD
  if new_pos < b._limit then
    (0, { b with _position := new_pos })
  else
    (to_u16 ((new_pos : Int) - (b._limit : Int) + 1), b)

/-- Method `remaining< T >()`, with `s = sizeof( T )`. -/
def remaining (s : Nat) (b : byte_buffer) : Nat :=
  (to_size ((b._limit : Int) - (b._position : Int)) / s) % U16_MOD

/-- Method `has_remaining< T >()`. -/
def has_remaining (s : Nat) (b : byte_buffer) : Bool :=
  remaining s b != 0

/-- Method `getr< T >( n )`: the returned pointer and the buffer afterwards. -/
def getr (s n : Nat) (b : byte_buffer) : Option Nat × byte_buffer :=
  let read_size := size_mul n s % U16_MOD
  if (b._position : Int) ≤ (b._limit : Int) - (read_size : Int) then
    (some (b._buffptr + b._position),
     { b with _position := (b._position + read_size) % U16_MOD })
  else
    (none, b)

/-- Method `geta< T >( pos, n )` (a `const` method): the returned pointer. -/
def geta (s pos n : Nat) (b : byte_buffer) : Option Nat :=
  if pos ≤ size_sub b._limit (size_mul n s) then
    some (b._buffptr + pos)
  else
    none

/-- Method `putr< T >( value )`: the returned `bool`, the memory and the
buffer afterwards. -/
def putr (s : Nat) (value : List Nat) (m : Mem) (b : byte_buffer) :
    Bool × Mem × byte_buffer :=
  if b._position ≤ size_sub b._limit s then
    (true, store m (b._buffptr + b._position) s value,
     { b with _position := ((b._position + s) % SIZE_MOD) % U16_MOD })
  else
    (false, m, b)

/-- One turn of the loop of `putr< T >( values, n )`: the assignment to
`_buffptr + _position`, then `_position += sizeof( T )`. -/
def putr_step (s : Nat) (values : Nat → List Nat) (st : Mem × byte_buffer)
    (i : Nat) : Mem × byte_buffer :=
  (store st.1 (st.2._buffptr + st.2._position) s (values i),
   { st.2 with _position := ((st.2._position + s) % SIZE_MOD) % U16_MOD })

/-- Method `putr< T >( values, n )`: the returned `uint16_t`, the memory and
the buffer afterwards. -/
def putr_values (s : Nat) (values : Nat → List Nat) (n : Nat) (m : Mem)
    (b : byte_buffer) : Nat × Mem × byte_buffer :=
  if b._read_only then (0, m, b)
  else
    let write_size := size_mul n s % U16_MOD
    if (b._position : Int) ≤ (b._limit : Int) - (write_size : Int) then
      let st := (List.range n).foldl (putr_step s values) (m, b)
      (0, st.1, st.2)
    else
      (to_u16 ((b._position : Int) + (write_size : Int) - (b._limit : Int)), m, b)

/-- Method `puta< T >( pos, value )`: the returned `bool`, the memory and the
buffer afterwards. -/
def puta (s pos : Nat) (value : List Nat) (m : Mem) (b : byte_buffer) :
    Bool × Mem × byte_buffer :=
  if pos ≤ size_sub b._limit s then
    (true, store m (b._buffptr + pos) s value, b)
  else
    (false, m, b)

/-- One turn of the loop of `puta< T >( pos, values, n )`: the assignment to
`_buffptr + pos + i * sizeof( T )`. -/
def puta_step (s pos : Nat) (values : Nat → List Nat) (b : byte_buffer)
    (m : Mem) (i : Nat) : Mem :=
  store m (b._buffptr + pos + size_mul i s) s (values i)

/-- Method `puta< T >( pos, values, n )`: the returned `uint16_t`, the memory
and the buffer afterwards. -/
def puta_values (s pos : Nat) (values : Nat → List Nat) (n : Nat) (m : Mem)
    (b : byte_buffer) : Nat × Mem × byte_buffer :=
  let write_size := size_mul n s % U16_MOD
  if b._read_only then (0, m, b)
  else if (pos : Int) < (b._limit : Int) - (write_size : Int) then
    (0, (List.range n).foldl (puta_step s pos values b) m, b)
  else
    (to_u16 ((b._position : Int) + (write_size : Int) - (b._limit : Int)), m, b)

/-- Memory with every byte zero. -/
def zero_mem : Mem := fun _ => 0

/-! ### A sequence of relative writes and the reads that mirror it -/

/-- A relative write: `putr< T >( value )` with `s = sizeof( T )`, or
`putr< T >( values, n )` where `n` is the length of the list. -/
inductive Write where
  | single (s : Nat) (value : List Nat)
  | multi (s : Nat) (values : List (List Nat))

/-- The size `sizeof( T )` of the element type of a write. -/
def Write.size : Write → Nat
  | .single s _ => s
  | .multi s _ => s

/-- The values a write stores, in order. -/
def Write.vals : Write → List (List Nat)
  | .single _ value => [value]
  | .multi _ values => values

/-- The number of values a write stores. -/
def Write.count (w : Write) : Nat := w.vals.length

/-- The byte size of a write. -/
def Write.bytes (w : Write) : Nat := w.count * w.size

/-- The write is well typed: `sizeof( T )` is at least 1 and every value is an
object representation of `sizeof( T )` bytes. -/
def Write.ok (w : Write) : Prop := 1 ≤ w.size ∧ ∀ v ∈ w.vals, v.length = w.size

instance (w : Write) : Decidable w.ok := by
  unfold Write.ok; infer_instance

/-- The total byte size of a sequence of writes. -/
def total_bytes (ws : List Write) : Nat := (ws.map Write.bytes).sum

/-- Performs one write; the flag tells whether the call reported success
(`true` from the single-value `putr`, 0 from the multi-value `putr`). -/
def do_write (w : Write) (m : Mem) (b : byte_buffer) : Bool × Mem × byte_buffer :=
  match w with
  | .single s value => putr s value m b
  | .multi s values =>
    let r := putr_values s (fun i => values.getD i []) values.length m b
    (r.1 == 0, r.2.1, r.2.2)

/-- Performs the writes in order, collecting the success flags. -/
def run_writes : List Write → Mem → byte_buffer → List Bool × Mem × byte_buffer
  | [], m, b => ([], m, b)
  | w :: ws, m, b =>
    let r := do_write w m b
    let r2 := run_writes ws r.2.1 r.2.2
    (r.1 :: r2.1, r2.2.1, r2.2.2)

/-- The read that mirrors a write: `getr< T >( n )`, and the `n` values the
returned pointer refers to (`none` for `nullptr`). -/
def do_read (w : Write) (m : Mem) (b : byte_buffer) :
    Option (List (List Nat)) × byte_buffer :=
  let r := getr w.size w.count b
  (r.1.map (fun p => load_values m p w.size w.count), r.2)

/-- Performs the mirroring reads in order, collecting what they return. -/
def run_reads : List Write → Mem → byte_buffer →
    List (Option (List (List Nat))) × byte_buffer
  | [], _, b => ([], b)
  | w :: ws, m, b =>
    let r := do_read w m b
    let r2 := run_reads ws m r.2
    (r.1 :: r2.1, r2.2)

/-- The three writes of the example program: `putr< int >( 42 )`,
`putr< char >( 'a' )` and `putr< float >( 42.42 )` (object representations on
a little-endian machine). -/
def example_writes : List Write :=
  [.single 4 [42, 0, 0, 0], .single 1 [97], .single 4 [20, 174, 41, 66]]

/-- The state the example program is in after `clear()`, `position< int >( 10 )`
and `limit< int >( 12 )` on a buffer of 64 bytes placed at address 1000. -/
def example_state : byte_buffer :=
  (limit 4 12 (position 4 10 (clear (byte_buffer.from_array 1000 64 0 false))).2).2

/-- A state with the position above the limit: a buffer of 65535 bytes after
`position< ubyte_t >( 65534 )` and `limit< ubyte_t >( 0 )`. -/
def wrapped_state : byte_buffer :=
  (limit 1 0 (position 1 65534 (byte_buffer.from_array 1000 65535 0 false)).2).2

/-! ### Sequences of public operations -/

/-- A call of a public method, with its arguments (`s` is `sizeof( T )`). -/
inductive Op where
  | clear
  | flip
  | limit (s new_limit : Nat)
  | position (s new_pos : Nat)
  | getr (s n : Nat)
  | geta (s pos n : Nat)
  | putr (s : Nat) (value : List Nat)
  | putr_values (s : Nat) (values : Nat → List Nat) (n : Nat)
  | puta (s pos : Nat) (value : List Nat)
  | puta_values (s pos : Nat) (values : Nat → List Nat) (n : Nat)

/-- The memory and the buffer after a call (the returned value is dropped). -/
def step (o : Op) (st : Mem × byte_buffer) : Mem × byte_buffer :=
  match o with
  | .clear => (st.1, clear st.2)
  | .flip => (st.1, flip st.2)
  | .limit s new_limit => (st.1, (limit s new_limit st.2).2)
  | .position s new_pos => (st.1, (position s new_pos st.2).2)
  | .getr s n => (st.1, (getr s n st.2).2)
  | .geta _ _ _ => st
  | .putr s value => (putr s value st.1 st.2).2
  | .putr_values s values n => (putr_values s values n st.1 st.2).2
  | .puta s pos value => (puta s pos value st.1 st.2).2
  | .puta_values s pos values n => (puta_values s pos values n st.1 st.2).2

/-- The memory and the buffer after a sequence of calls, in order. -/
def run (ops : List Op) (st : Mem × byte_buffer) : Mem × byte_buffer :=
  ops.foldl (fun acc o => step o acc) st

/-- Conversion of a `bool` argument to `uint16_t`. -/
def bool_to_u16 (x : Bool) : Nat := if x then 1 else 0

/-- The view `b2` of the example program, `byte_buffer b2( b, 10, true )`: the
constructor found by overload resolution is
`byte_buffer( copy, capacity, offset = 0, read_only = false )`, so 10 is the
capacity, `true` is converted to the `uint16_t` offset, and `read_only`
takes its default. -/
def example_b2 : byte_buffer :=
  byte_buffer.from_buffer example_state 10 (bool_to_u16 true) false

/-! ## Arithmetic of the conversions -/

theorem size_mul_mod_u16 (n s : Nat) : size_mul n s % U16_MOD = (n * s) % 65536 := by
  simp only [size_mul, SIZE_MOD, U16_MOD]
  omega

theorem size_mul_small (n s : Nat) (h : n * s ≤ 65535) :
    size_mul n s % U16_MOD = n * s := by
  rw [size_mul_mod_u16]
  omega

theorem size_sub_le (a c : Nat) (h : c ≤ a) (ha : a < 65536) : size_sub a c = a - c := by
  simp only [size_sub, to_size]
  omega

theorem size_sub_gt (a c : Nat) (h : a < c) (hc : c < 18446744073709551616) :
    size_sub a c = 18446744073709551616 + a - c := by
  simp only [size_sub, to_size]
  omega

/-! ## The setters -/

theorem limit_fits (s nl : Nat) (b : byte_buffer) (hs : nl * s ≤ 65535)
    (h : nl * s ≤ b._capacity) : limit s nl b = (0, { b with _limit := nl * s }) := by
  simp only [limit, size_mul_small nl s hs, if_pos h]

theorem limit_over (s nl : Nat) (b : byte_buffer) (hs : nl * s ≤ 65535)
    (h : b._capacity < nl * s) : limit s nl b = (nl * s - b._capacity, b) := by
  have h1 : ¬ nl * s ≤ b._capacity := by omega
  simp only [limit, size_mul_small nl s hs, if_neg h1, to_u16]
  congr 1
  omega

theorem capacity_eq_div (s : Nat) (b : byte_buffer) (hb : b.wf) :
    capacity s b = b._capacity / s := by
  obtain ⟨hc, _, _⟩ := hb
  have h1 : to_size (b._capacity : Int) = b._capacity := by
    simp only [to_size]
    omega
  have h2 : b._capacity / s ≤ b._capacity := Nat.div_le_self _ _
  simp only [capacity, h1, U16_MOD]
  generalize b._capacity / s = q at h2 ⊢
  omega

theorem position_fits (s np : Nat) (b : byte_buffer) (hs : np * s ≤ 65535)
    (h : np * s < b._limit) : position s np b = (0, { b with _position := np * s }) := by
  simp only [position, size_mul_small np s hs, if_pos h]

theorem position_over (s np : Nat) (b : byte_buffer) (hs : np * s ≤ 65535)
    (hov : np * s + 1 ≤ b._limit + 65535) (h : b._limit ≤ np * s) :
    position s np b = (np * s - b._limit + 1, b) := by
  have h1 : ¬ np * s < b._limit := by omega
  simp only [position, size_mul_small np s hs, if_neg h1, to_u16]
  congr 1
  omega

/-! ## The accessors when the span fits -/

theorem getr_fits (s n : Nat) (b : byte_buffer) (hs : n * s ≤ 65535)
    (hl : b._limit < 65536) (h : b._position + n * s ≤ b._limit) :
    getr s n b = (some (b._buffptr + b._position),
      { b with _position := b._position + n * s }) := by
  have h1 : (b._position : Int) ≤ (b._limit : Int) - ((n * s : Nat) : Int) := by omega
  have h2 : (b._position + n * s) % 65536 = b._position + n * s := by omega
  simp only [getr, size_mul_small n s hs, if_pos h1]
  simp only [U16_MOD, h2]

theorem getr_over (s n : Nat) (b : byte_buffer) (hs : n * s ≤ 65535)
    (h : b._limit < b._position + n * s) : getr s n b = (none, b) := by
  have h1 : ¬ (b._position : Int) ≤ (b._limit : Int) - ((n * s : Nat) : Int) := by omega
  simp only [getr, size_mul_small n s hs, if_neg h1]

theorem putr_fits (s : Nat) (value : List Nat) (m : Mem) (b : byte_buffer)
    (hl : b._limit < 65536) (h : b._position + s ≤ b._limit) :
    putr s value m b = (true, store m (b._buffptr + b._position) s value,
      { b with _position := b._position + s }) := by
  have h1 : b._position ≤ size_sub b._limit s := by
    rw [size_sub_le _ _ (by omega) hl]
    omega
  have h2 : (b._position + s) % 18446744073709551616 % 65536 = b._position + s := by omega
  simp only [putr, if_pos h1, SIZE_MOD, U16_MOD, h2]

theorem putr_values_over (s n : Nat) (values : Nat → List Nat) (m : Mem)
    (b : byte_buffer) (hro : b._read_only = false) (hs : n * s ≤ 65535)
    (hov : b._position + n * s ≤ b._limit + 65535)
    (h : b._limit < b._position + n * s) :
    putr_values s values n m b = (b._position + n * s - b._limit, m, b) := by
  have h1 : ¬ (b._position : Int) ≤ (b._limit : Int) - ((n * s : Nat) : Int) := by omega
  simp only [putr_values, hro, size_mul_small n s hs, if_neg h1, to_u16]
  simp only [Bool.false_eq_true, if_false]
  congr 1
  omega

/-! ## Memory -/

theorem store_outside (m : Mem) (addr s : Nat) (value : List Nat) (a : Nat)
    (h : a < addr ∨ addr + s ≤ a) : store m addr s value a = m a := by
  have h1 : ¬ (addr ≤ a ∧ a < addr + s) := by omega
  simp only [store, if_neg h1]

theorem store_inside (m : Mem) (addr s : Nat) (value : List Nat) (j : Nat)
    (h : j < s) : store m addr s value (addr + j) = value.getD j 0 := by
  have h1 : addr ≤ addr + j ∧ addr + j < addr + s := by omega
  simp only [store, if_pos h1, Nat.add_sub_cancel_left]

theorem load_eq_of_bytes (m : Mem) (addr s : Nat) (v : List Nat) (hv : v.length = s)
    (h : ∀ j, j < s → m (addr + j) = v.getD j 0) : load m addr s = v := by
  apply List.ext_getElem
  · simp [load, hv]
  · intro j h1 h2
    have hj : j < s := by simpa [load] using h1
    simp only [load, List.getElem_map, List.getElem_range]
    rw [h j hj, List.getD_eq_getElem _ _ h2]

theorem load_congr (m m2 : Mem) (addr s : Nat)
    (h : ∀ j, j < s → m (addr + j) = m2 (addr + j)) : load m addr s = load m2 addr s := by
  simp only [load]
  apply List.map_congr_left
  intro j hj
  exact h j (List.mem_range.mp hj)

/-! ## The loop of the multi-value relative write -/

theorem putr_loop_spec (s : Nat) (values : Nat → List Nat) (n : Nat) (m : Mem)
    (b : byte_buffer) (h : b._position + n * s ≤ 65535) :
    ((List.range n).foldl (putr_step s values) (m, b)).2
      = { b with _position := b._position + n * s } ∧
    (∀ a, a < b._buffptr + b._position ∨ b._buffptr + b._position + n * s ≤ a →
      ((List.range n).foldl (putr_step s values) (m, b)).1 a = m a) ∧
    (∀ i j, i < n → j < s →
      ((List.range n).foldl (putr_step s values) (m, b)).1
        (b._buffptr + b._position + i * s + j) = (values i).getD j 0) := by
  induction n with
  | zero => simp
  | succ k ih =>
    have hk : b._position + k * s ≤ 65535 := by
      have : k * s ≤ (k + 1) * s := Nat.mul_le_mul_right s (Nat.le_succ k)
      omega
    obtain ⟨ih1, ih2, ih3⟩ := ih hk
    have hsucc : (k + 1) * s = k * s + s := Nat.succ_mul k s
    rw [List.range_succ, List.foldl_append]
    simp only [List.foldl_cons, List.foldl_nil]
    generalize (List.range k).foldl (putr_step s values) (m, b) = st at ih1 ih2 ih3
    obtain ⟨mk, bk⟩ := st
    simp only at ih1 ih2 ih3
    subst ih1
    have hmod : (b._position + k * s + s) % 18446744073709551616 % 65536
        = b._position + (k + 1) * s := by omega
    refine ⟨?_, ?_, ?_⟩
    · simp only [putr_step, SIZE_MOD, U16_MOD, hmod]
    · intro a ha
      simp only [putr_step]
      rw [store_outside _ _ _ _ _ (by omega)]
      exact ih2 a (by omega)
    · intro i j hi hj
      simp only [putr_step]
      by_cases hik : i = k
      · subst hik
        have haddr : b._buffptr + b._position + i * s + j
            = b._buffptr + (b._position + i * s) + j := by omega
        rw [haddr, store_inside _ _ _ _ _ hj]
      · have hlt : i < k := by omega
        have hle : (i + 1) * s ≤ k * s := Nat.mul_le_mul_right s hlt
        have hi1 : (i + 1) * s = i * s + s := Nat.succ_mul i s
        rw [store_outside _ _ _ _ _ (by omega)]
        exact ih3 i j hlt hj

theorem putr_values_fits (s n : Nat) (values : Nat → List Nat) (m : Mem)
    (b : byte_buffer) (hro : b._read_only = false) (hl : b._limit < 65536)
    (h : b._position + n * s ≤ b._limit) :
    (putr_values s values n m b).1 = 0 ∧
    (putr_values s values n m b).2.2 = { b with _position := b._position + n * s } ∧
    (∀ a, a < b._buffptr + b._position ∨ b._buffptr + b._position + n * s ≤ a →
      (putr_values s values n m b).2.1 a = m a) ∧
    (∀ i j, i < n → j < s →
      (putr_values s values n m b).2.1 (b._buffptr + b._position + i * s + j)
        = (values i).getD j 0) := by
  have hs : n * s ≤ 65535 := by omega
  have h1 : (b._position : Int) ≤ (b._limit : Int) - ((n * s : Nat) : Int) := by omega
  have hro2 : ¬ (b._read_only = true) := by simp [hro]
  obtain ⟨l1, l2, l3⟩ := putr_loop_spec s values n m b (by omega)
  simp only [putr_values, if_neg hro2, size_mul_small n s hs, if_pos h1]
  exact ⟨trivial, l1, l2, l3⟩

/-! ## One write, then the sequence -/

theorem load_values_congr (m m2 : Mem) (addr s n : Nat)
    (h : ∀ a, a < addr + n * s → m a = m2 a) :
    load_values m addr s n = load_values m2 addr s n := by
  simp only [load_values]
  apply List.map_congr_left
  intro i hi
  have hi2 : i < n := List.mem_range.mp hi
  apply load_congr
  intro j hj
  have hle : (i + 1) * s ≤ n * s := Nat.mul_le_mul_right s hi2
  have hi1 : (i + 1) * s = i * s + s := Nat.succ_mul i s
  exact h _ (by omega)

theorem do_write_spec (w : Write) (m : Mem) (b : byte_buffer)
    (hro : b._read_only = false) (hl : b._limit < 65536) (hok : w.ok)
    (h : b._position + w.bytes ≤ b._limit) :
    (do_write w m b).1 = true ∧
    (do_write w m b).2.2 = { b with _position := b._position + w.bytes } ∧
    (∀ a, a < b._buffptr + b._position → (do_write w m b).2.1 a = m a) ∧
    load_values (do_write w m b).2.1 (b._buffptr + b._position) w.size w.count
      = w.vals := by
  cases w with
  | single s value =>
    obtain ⟨_, hv⟩ := hok
    have hv1 : value.length = s := hv value (by simp [Write.vals])
    have hb : Write.bytes (.single s value) = s := by
      simp [Write.bytes, Write.count, Write.vals, Write.size]
    rw [hb] at h ⊢
    simp only [do_write, putr_fits s value m b hl h, Write.size, Write.count, Write.vals]
    refine ⟨trivial, trivial, ?_, ?_⟩
    · intro a ha
      exact store_outside _ _ _ _ _ (Or.inl ha)
    · have hr1 : List.range 1 = [0] := rfl
      simp only [load_values, List.length_singleton, hr1, List.map_cons,
        List.map_nil, Nat.zero_mul, Nat.add_zero]
      congr 1
      apply load_eq_of_bytes _ _ _ _ hv1
      intro j hj
      exact store_inside _ _ _ _ _ hj
  | multi s values =>
    obtain ⟨_, hv⟩ := hok
    simp only [Write.vals, Write.size] at hv
    have hb : Write.bytes (.multi s values) = values.length * s := by
      simp [Write.bytes, Write.count, Write.vals, Write.size]
    rw [hb] at h ⊢
    obtain ⟨p1, p2, p3, p4⟩ :=
      putr_values_fits s values.length (fun i => values.getD i []) m b hro hl h
    simp only [do_write, Write.size, Write.count, Write.vals]
    refine ⟨by rw [p1]; rfl, p2, fun a ha => p3 a (Or.inl ha), ?_⟩
    apply List.ext_getElem
    · simp [load_values]
    · intro i h1 h2
      simp only [load_values, List.getElem_map, List.getElem_range]
      apply load_eq_of_bytes _ _ _ _ (hv _ (List.getElem_mem h2))
      intro j hj
      rw [p4 i j h2 hj, List.getD_eq_getElem _ _ h2]

theorem round_trip_from (ws : List Write) : ∀ (m : Mem) (b rb : byte_buffer),
    b._read_only = false → b._limit < 65536 → (∀ w ∈ ws, w.ok) →
    b._position + total_bytes ws ≤ b._limit →
    rb._buffptr = b._buffptr → rb._position = b._position → rb._limit < 65536 →
    rb._position + total_bytes ws ≤ rb._limit →
    (run_writes ws m b).1 = ws.map (fun _ => true) ∧
    (run_writes ws m b).2.2 = { b with _position := b._position + total_bytes ws } ∧
    (∀ a, a < b._buffptr + b._position → (run_writes ws m b).2.1 a = m a) ∧
    (run_reads ws (run_writes ws m b).2.1 rb).1 = ws.map (fun w => some w.vals) ∧
    (run_reads ws (run_writes ws m b).2.1 rb).2
      = { rb with _position := rb._position + total_bytes ws } := by
  induction ws with
  | nil =>
    intro m b rb _ _ _ _ _ _ _ _
    simp [run_writes, run_reads, total_bytes]
  | cons w ws ih =>
    intro m b rb hro hl hok h hbase hpos hrl hr
    have htot : total_bytes (w :: ws) = w.bytes + total_bytes ws := by
      simp [total_bytes]
    rw [htot] at h hr ⊢
    obtain ⟨d1, d2, d3, d4⟩ :=
      do_write_spec w m b hro hl (hok w (List.mem_cons_self _ _)) (by omega)
    have hfit : w.count * w.size ≤ 65535 := by
      have : w.bytes = w.count * w.size := rfl
      omega
    have hg := getr_fits w.size w.count rb hfit hrl
      (by have : w.bytes = w.count * w.size := rfl
          omega)
    simp only [run_writes, run_reads, do_read, hg]
    generalize do_write w m b = r at d1 d2 d3 d4
    obtain ⟨f, m1, b1⟩ := r
    simp only at d1 d2 d3 d4
    subst d1 d2
    obtain ⟨i1, i2, i3, i4, i5⟩ := ih m1
      { b with _position := b._position + w.bytes }
      { rb with _position := rb._position + w.count * w.size }
      hro hl (fun x hx => hok x (List.mem_cons_of_mem _ hx))
      (by simp only; omega) hbase
      (by have : w.bytes = w.count * w.size := rfl
          simp only; omega)
      hrl
      (by have : w.bytes = w.count * w.size := rfl
          simp only; omega)
    simp only at i2 i3 i5
    have hb2 : w.bytes = w.count * w.size := rfl
    have hld : load_values
        (run_writes ws m1 { b with _position := b._position + w.bytes }).2.1
        (rb._buffptr + rb._position) w.size w.count = w.vals := by
      rw [hbase, hpos, ← d4]
      apply load_values_congr
      intro a ha
      exact i3 a (by omega)
    refine ⟨?_, ?_, ?_, ?_, ?_⟩
    · simp [i1]
    · rw [i2]
      simp only [Nat.add_assoc]
    · intro a ha
      rw [i3 a (by omega)]
      exact d3 a ha
    · simp only [i4, Option.map_some', hld, List.map_cons]
    · rw [i5]
      simp only [hb2, Nat.add_assoc]

/-! ## The cursor in a sequence of operations -/

theorem remaining_of_le (s : Nat) (b : byte_buffer) (hs : 1 ≤ s) (hb : b.wf)
    (h : b._position ≤ b._limit) :
    remaining s b = (b._limit - b._position) / s ∧
    b._position + remaining s b * s ≤ b._limit ∧
    (∀ k, b._position + k * s ≤ b._limit → k ≤ remaining s b) ∧
    (has_remaining s b = true ↔ b._position + s ≤ b._limit) := by
  obtain ⟨_, _, hl⟩ := hb
  have h1 : to_size ((b._limit : Int) - (b._position : Int)) = b._limit - b._position := by
    simp only [to_size]
    omega
  have h2 : (b._limit - b._position) / s ≤ b._limit - b._position := Nat.div_le_self _ _
  have hr : remaining s b = (b._limit - b._position) / s := by
    simp only [remaining, h1, U16_MOD]
    generalize (b._limit - b._position) / s = q at h2 ⊢
    omega
  have hmul : (b._limit - b._position) / s * s ≤ b._limit - b._position :=
    Nat.div_mul_le_self _ _
  refine ⟨hr, ?_, ?_, ?_⟩
  · rw [hr]
    omega
  · intro k hk
    rw [hr]
    exact (Nat.le_div_iff_mul_le (by omega)).mpr (by omega)
  · simp only [has_remaining, hr, bne_iff_ne, ne_eq]
    constructor
    · intro hne
      have hpos : 1 ≤ (b._limit - b._position) / s := by omega
      have := (Nat.le_div_iff_mul_le (by omega : 0 < s)).mp hpos
      omega
    · intro hfit
      have : 1 ≤ (b._limit - b._position) / s :=
        (Nat.le_div_iff_mul_le (by omega : 0 < s)).mpr (by omega)
      omega

theorem putr_loop_position (s : Nat) (values : Nat → List Nat) (n : Nat) (m : Mem)
    (b : byte_buffer) (hp : b._position < 65536) :
    ((List.range n).foldl (putr_step s values) (m, b)).2
      = { b with _position := (b._position + n * s) % 65536 } := by
  induction n with
  | zero =>
    have : (b._position + 0 * s) % 65536 = b._position := by omega
    simp only [List.range_zero, List.foldl_nil, this]
  | succ k ih =>
    rw [List.range_succ, List.foldl_append]
    simp only [List.foldl_cons, List.foldl_nil]
    have hsucc : (k + 1) * s = k * s + s := Nat.succ_mul k s
    have hmod : ((b._position + k * s) % 65536 + s) % 18446744073709551616 % 65536
        = (b._position + (k + 1) * s) % 65536 := by omega
    simp only [putr_step, ih, SIZE_MOD, U16_MOD, hmod]

/-- Every operation other than a single-value `putr` of a type larger than
the limit keeps the limit and the position within the capacity. -/
theorem step_keeps_bounds (o : Op) (m : Mem) (b : byte_buffer) (hb : b.wf)
    (hl : b._limit ≤ b._capacity) (hp : b._position ≤ b._capacity)
    (hno : ∀ s v, o = .putr s v → s ≤ b._limit) :
    (step o (m, b)).2.wf ∧
    (step o (m, b)).2._limit ≤ (step o (m, b)).2._capacity ∧
    (step o (m, b)).2._position ≤ (step o (m, b)).2._capacity := by
  obtain ⟨hc, hp2, hl2⟩ := hb
  cases o with
  | clear => exact ⟨⟨hc, by simp [step, clear], by simpa [step, clear] using hc⟩,
      by simp [step, clear], by simp [step, clear]⟩
  | flip => exact ⟨⟨hc, by simp [step, flip], by simpa [step, flip] using hp2⟩,
      by simpa [step, flip] using hp, by simp [step, flip]⟩
  | limit s nl =>
    simp only [step, limit, byte_buffer.wf]
    split <;> (simp only [U16_MOD] at *; omega)
  | position s np =>
    simp only [step, position, byte_buffer.wf]
    split <;> (simp only [U16_MOD] at *; omega)
  | getr s n =>
    simp only [step, getr, byte_buffer.wf]
    split <;> (simp only [U16_MOD] at *; omega)
  | geta s pos n => exact ⟨⟨hc, hp2, hl2⟩, hl, hp⟩
  | putr s v =>
    have hs : s ≤ b._limit := hno s v rfl
    simp only [step, putr, byte_buffer.wf, size_sub_le _ _ hs hl2]
    split <;> (simp only [U16_MOD, SIZE_MOD] at *; omega)
  | putr_values s values n =>
    simp only [step, putr_values, byte_buffer.wf]
    split
    · simp only
      omega
    · split
      · rename_i hfit
        rw [putr_loop_position s values n m b hp2]
        rw [size_mul_mod_u16] at hfit
        simp only
        omega
      · simp only
        omega
  | puta s pos v =>
    simp only [step, puta, byte_buffer.wf]
    split <;> (simp only; omega)
  | puta_values s pos values n =>
    simp only [step, puta_values, byte_buffer.wf]
    split
    · simp only
      omega
    · split <;> (simp only; omega)

/-- Every operation keeps the position at or below the limit, apart from a
single-value `putr` of a type larger than the limit and a `limit< T >` that
sets the limit below the position. -/
theorem step_keeps_order (o : Op) (m : Mem) (b : byte_buffer) (hb : b.wf)
    (h : b._position ≤ b._limit)
    (hno : ∀ s v, o = .putr s v → s ≤ b._limit)
    (hlim : ∀ s nl, o = .limit s nl → b._position ≤ (limit s nl b).2._limit) :
    (step o (m, b)).2._position ≤ (step o (m, b)).2._limit := by
  obtain ⟨hc, hp2, hl2⟩ := hb
  cases o with
  | clear => simp [step, clear]
  | flip => simp [step, flip]
  | limit s nl =>
    have h1 := hlim s nl rfl
    have h2 : (limit s nl b).2._position = b._position := by
      simp only [limit]
      split <;> rfl
    simp only [step, h2]
    exact h1
  | position s np =>
    simp only [step, position]
    split <;> (simp only [U16_MOD] at *; omega)
  | getr s n =>
    simp only [step, getr]
    split <;> (simp only [U16_MOD] at *; omega)
  | geta s pos n => exact h
  | putr s v =>
    have hs : s ≤ b._limit := hno s v rfl
    simp only [step, putr, size_sub_le _ _ hs hl2]
    split <;> (simp only [U16_MOD, SIZE_MOD] at *; omega)
  | putr_values s values n =>
    simp only [step, putr_values]
    split
    · exact h
    · split
      · rename_i hfit
        rw [putr_loop_position s values n m b hp2]
        rw [size_mul_mod_u16] at hfit
        simp only
        omega
      · exact h
  | puta s pos v =>
    simp only [step, puta]
    split <;> exact h
  | puta_values s pos values n =>
    simp only [step, puta_values]
    split
    · exact h
    · split <;> exact h

/-! ## The claims -/

/-- C1: round trip.  On a buffer that is not read-only, with position 0 and
limit equal to the capacity, every sequence of well-typed relative writes
(single-value or multi-value, of any element sizes) whose total byte size is
at most the capacity reports success at every write; after `flip()` the
mirroring sequence of `getr< T >( n )` calls returns non-null pointers to
exactly the values written, in order, and then `remaining< ubyte_t >()` is 0. -/
theorem round_trip (ws : List Write) (m : Mem) (b : byte_buffer) (hb : b.wf)
    (hro : b._read_only = false) (hpos : b._position = 0)
    (hlim : b._limit = b._capacity) (hok : ∀ w ∈ ws, w.ok)
    (htot : total_bytes ws ≤ b._capacity) :
    (run_writes ws m b).1 = ws.map (fun _ => true) ∧
    (run_reads ws (run_writes ws m b).2.1 (flip (run_writes ws m b).2.2)).1
      = ws.map (fun w => some w.vals) ∧
    remaining 1
      (run_reads ws (run_writes ws m b).2.1 (flip (run_writes ws m b).2.2)).2 = 0 := by
  obtain ⟨hc, _, hl⟩ := hb
  obtain ⟨w1, w2, _, _, _⟩ := round_trip_from ws m b b hro hl hok (by omega) rfl rfl hl
    (by omega)
  obtain ⟨_, _, _, r4, r5⟩ := round_trip_from ws m b (flip (run_writes ws m b).2.2)
    hro hl hok (by omega) (by rw [w2]; rfl) (by rw [hpos]; rfl)
    (by rw [w2]; simp only [flip]; omega) (by rw [w2]; simp only [flip]; omega)
  refine ⟨w1, r4, ?_⟩
  rw [r5, w2]
  simp only [remaining, flip, to_size, U16_MOD]
  omega

/-- The round trip of C1 on the three writes of the example program. -/
theorem round_trip_witness :
    (run_writes example_writes zero_mem (byte_buffer.from_array 1000 64 0 false)).1
      = example_writes.map (fun _ => true) ∧
    (run_reads example_writes
      (run_writes example_writes zero_mem (byte_buffer.from_array 1000 64 0 false)).2.1
      (flip (run_writes example_writes zero_mem
        (byte_buffer.from_array 1000 64 0 false)).2.2)).1
      = example_writes.map (fun w => some w.vals) ∧
    remaining 1
      (run_reads example_writes
        (run_writes example_writes zero_mem (byte_buffer.from_array 1000 64 0 false)).2.1
        (flip (run_writes example_writes zero_mem
          (byte_buffer.from_array 1000 64 0 false)).2.2)).2 = 0 :=
  round_trip example_writes zero_mem (byte_buffer.from_array 1000 64 0 false)
    (by decide) (by decide) (by decide) (by decide) (by decide) (by decide)

/-- C2: `getr< int >( 16384 )` on a fresh buffer of 64 bytes returns a non-null
pointer and leaves the position where it was, although the span of
`16384 * 4` bytes does not fit before the limit: the read size wraps to 0 in
`uint16_t`. -/
theorem getr_wrapped_size_not_null :
    (getr 4 16384 (byte_buffer.from_array 1000 64 0 false)).1 = some 1000 ∧
    ¬ ((byte_buffer.from_array 1000 64 0 false)._position + 16384 * 4
        ≤ (byte_buffer.from_array 1000 64 0 false)._limit) ∧
    (getr 4 16384 (byte_buffer.from_array 1000 64 0 false)).2
      = byte_buffer.from_array 1000 64 0 false := by
  decide

/-- C3: after `flip()` on a fresh buffer (position 0, limit 0) the call
`putr< ubyte_t >( 7 )` returns true, stores the byte and moves the position
to 1, although there is no room before the limit: `_limit - sizeof( T )`
wraps in `size_t`. -/
theorem putr_true_without_room :
    (flip (byte_buffer.from_array 1000 64 0 false))._position = 0 ∧
    (flip (byte_buffer.from_array 1000 64 0 false))._limit = 0 ∧
    (putr 1 [7] zero_mem (flip (byte_buffer.from_array 1000 64 0 false))).1 = true ∧
    (putr 1 [7] zero_mem (flip (byte_buffer.from_array 1000 64 0 false))).2.1 1000 = 7 ∧
    (putr 1 [7] zero_mem (flip (byte_buffer.from_array 1000 64 0 false))).2.2._position = 1 := by
  decide

/-- C4 (as stated, refuted): with position 40 and limit 48, `putr` of 65535
values of 4 bytes returns 65524, not `40 + 65535 * 4 - 48`; and with position
65534 and limit 0, `putr` of 2 bytes does not fit and returns 0. -/
theorem putr_values_overage_counterexample :
    (example_state._read_only = false ∧
      (example_state._limit : Int) - (example_state._position : Int) < 65535 * 4 ∧
      (putr_values 4 (fun _ => [1, 0, 0, 0]) 65535 zero_mem example_state).1 = 65524 ∧
      (putr_values 4 (fun _ => [1, 0, 0, 0]) 65535 zero_mem example_state).1
        ≠ example_state._position + 65535 * 4 - example_state._limit) ∧
    (wrapped_state._read_only = false ∧
      wrapped_state._position = 65534 ∧ wrapped_state._limit = 0 ∧
      (wrapped_state._limit : Int) - (wrapped_state._position : Int) < 2 * 1 ∧
      (putr_values 1 (fun _ => [1]) 2 zero_mem wrapped_state).1 = 0) := by
  decide

/-- C4 (amended): on a buffer that is not read-only, when `n * sizeof( T )`
and the overage `position + n * sizeof( T ) - limit` both fit in a
`uint16_t` and `n * sizeof( T ) > limit - position`, `putr< T >( values, n )`
returns that overage, which is strictly positive, and leaves the memory and
the buffer (so the position) unchanged. -/
theorem putr_values_overage (s n : Nat) (values : Nat → List Nat) (m : Mem)
    (b : byte_buffer) (hro : b._read_only = false) (hfit : n * s ≤ 65535)
    (hov : b._position + n * s - b._limit ≤ 65535)
    (hgt : (b._limit : Int) - (b._position : Int) < ((n * s : Nat) : Int)) :
    putr_values s values n m b = (b._position + n * s - b._limit, m, b) ∧
    0 < b._position + n * s - b._limit := by
  have h : b._limit < b._position + n * s := by omega
  exact ⟨putr_values_over s n values m b hro hfit (by omega) h, by omega⟩

/-- The amended C4 on the example program: position 40, limit 48, three
4-byte values, overage 4. -/
theorem putr_values_overage_witness :
    putr_values 4 (fun _ => [1, 0, 0, 0]) 3 zero_mem example_state
      = (example_state._position + 3 * 4 - example_state._limit, zero_mem, example_state) ∧
    0 < example_state._position + 3 * 4 - example_state._limit :=
  putr_values_overage 4 3 (fun _ => [1, 0, 0, 0]) zero_mem example_state
    (by decide) (by decide) (by decide) (by decide)

/-- C5: on a read-only buffer, and on a view of it, `putr< ubyte_t >( 7 )`
returns true and stores the byte, and `puta< ubyte_t >( 20, 7 )` stores the
byte at offset 20: the single-value writes do not test `_read_only`. -/
theorem single_value_writes_ignore_read_only :
    (byte_buffer.from_array 1000 64 0 true)._read_only = true ∧
    zero_mem 1000 = 0 ∧
    (putr 1 [7] zero_mem (byte_buffer.from_array 1000 64 0 true)).1 = true ∧
    (putr 1 [7] zero_mem (byte_buffer.from_array 1000 64 0 true)).2.1 1000 = 7 ∧
    zero_mem 1020 = 0 ∧
    (puta 1 20 [7] zero_mem (byte_buffer.from_array 1000 64 0 true)).2.1 1020 = 7 ∧
    (byte_buffer.from_buffer (byte_buffer.from_array 1000 64 0 true) 10 0 false)._read_only
      = true ∧
    (putr 1 [7] zero_mem
      (byte_buffer.from_buffer (byte_buffer.from_array 1000 64 0 true) 10 0 false)).2.1 1000
      = 7 := by
  decide

/-- C6: `geta< ubyte_t >( 0, 65 )` on a fresh buffer of 64 bytes returns a
non-null pointer although the span of 65 bytes oversteps the limit:
`_limit - n * sizeof( T )` wraps in `size_t`. -/
theorem geta_not_null_over_limit :
    geta 1 0 65 (byte_buffer.from_array 1000 64 0 false) = some 1000 ∧
    ¬ (0 + 65 * 1 ≤ (byte_buffer.from_array 1000 64 0 false)._limit) := by
  decide

/-- C7: with position 40 and limit 48 on a buffer that is not read-only,
`puta< ubyte_t >( 44, values, 8 )` stores nothing (the span oversteps the
limit) and returns 0: the returned count is computed from `_position`, not
from `pos`. -/
theorem puta_values_zero_without_store :
    example_state._read_only = false ∧
    example_state._position = 40 ∧
    example_state._limit = 48 ∧
    puta_values 1 44 (fun i => [i + 1]) 8 zero_mem example_state
      = (0, zero_mem, example_state) := by
  refine ⟨by decide, by decide, by decide, ?_⟩
  rfl

/-- C8 (as stated, refuted): on a buffer of capacity 64, `limit< int >( 65535 )`
returns 65468, not `65535 * 4 - 64`. -/
theorem limit_overage_counterexample :
    ¬ (65535 * 4 ≤ (byte_buffer.from_array 1000 64 0 false)._capacity) ∧
    (limit 4 65535 (byte_buffer.from_array 1000 64 0 false)).1 = 65468 ∧
    (limit 4 65535 (byte_buffer.from_array 1000 64 0 false)).1
      ≠ 65535 * 4 - (byte_buffer.from_array 1000 64 0 false)._capacity := by
  decide

/-- C8 (amended): when `new_limit * sizeof( T )` fits in a `uint16_t`,
`limit< T >( new_limit )` returns 0 if and only if
`new_limit * sizeof( T ) <= capacity` (equivalently
`new_limit <= capacity< T >()`), in which case the limit becomes
`new_limit * sizeof( T )`; otherwise it returns the strictly positive overage
`new_limit * sizeof( T ) - capacity` and leaves the buffer unchanged; the
position is never modified. -/
theorem limit_setter_spec (s nl : Nat) (b : byte_buffer) (hb : b.wf) (hs : 1 ≤ s)
    (hfit : nl * s ≤ 65535) :
    ((limit s nl b).1 = 0 ↔ nl * s ≤ b._capacity) ∧
    (nl * s ≤ b._capacity ↔ nl ≤ capacity s b) ∧
    (nl * s ≤ b._capacity → (limit s nl b).2 = { b with _limit := nl * s }) ∧
    (b._capacity < nl * s →
      (limit s nl b).1 = nl * s - b._capacity ∧ 0 < (limit s nl b).1 ∧
      (limit s nl b).2 = b) ∧
    (limit s nl b).2._position = b._position := by
  have hcap : (nl * s ≤ b._capacity ↔ nl ≤ capacity s b) := by
    rw [capacity_eq_div s b hb]
    exact (Nat.le_div_iff_mul_le (by omega)).symm
  by_cases h : nl * s ≤ b._capacity
  · rw [limit_fits s nl b hfit h]
    exact ⟨by simp [h], hcap, fun _ => rfl, fun h2 => by omega, rfl⟩
  · have h2 : b._capacity < nl * s := by omega
    rw [limit_over s nl b hfit h2]
    refine ⟨?_, hcap, fun h3 => by omega, fun _ => ⟨rfl, ?_, rfl⟩, rfl⟩
    · simp only
      omega
    · simp only
      omega

/-- The amended C8 on the example program: `limit< int >( 12 )` on a buffer of
64 bytes. -/
theorem limit_setter_spec_witness :
    ((limit 4 12 (byte_buffer.from_array 1000 64 0 false)).1 = 0
      ↔ 12 * 4 ≤ (byte_buffer.from_array 1000 64 0 false)._capacity) ∧
    (12 * 4 ≤ (byte_buffer.from_array 1000 64 0 false)._capacity
      ↔ 12 ≤ capacity 4 (byte_buffer.from_array 1000 64 0 false)) ∧
    (12 * 4 ≤ (byte_buffer.from_array 1000 64 0 false)._capacity →
      (limit 4 12 (byte_buffer.from_array 1000 64 0 false)).2
        = { byte_buffer.from_array 1000 64 0 false with _limit := 12 * 4 }) ∧
    ((byte_buffer.from_array 1000 64 0 false)._capacity < 12 * 4 →
      (limit 4 12 (byte_buffer.from_array 1000 64 0 false)).1
        = 12 * 4 - (byte_buffer.from_array 1000 64 0 false)._capacity ∧
      0 < (limit 4 12 (byte_buffer.from_array 1000 64 0 false)).1 ∧
      (limit 4 12 (byte_buffer.from_array 1000 64 0 false)).2
        = byte_buffer.from_array 1000 64 0 false) ∧
    (limit 4 12 (byte_buffer.from_array 1000 64 0 false)).2._position
      = (byte_buffer.from_array 1000 64 0 false)._position :=
  limit_setter_spec 4 12 (byte_buffer.from_array 1000 64 0 false)
    (by decide) (by decide) (by decide)

/-- C9 (as stated, refuted): with limit 64, `position< int >( 65535 )` returns
65469, not `65535 * 4 - 64 + 1`; and with limit 0,
`position< ubyte_t >( 65535 )` leaves the position unchanged and returns 0. -/
theorem position_overage_counterexample :
    (¬ (65535 * 4 < (byte_buffer.from_array 1000 64 0 false)._limit) ∧
      (position 4 65535 (byte_buffer.from_array 1000 64 0 false)).1 = 65469 ∧
      (position 4 65535 (byte_buffer.from_array 1000 64 0 false)).1
        ≠ 65535 * 4 - (byte_buffer.from_array 1000 64 0 false)._limit + 1) ∧
    (¬ (65535 * 1 < (flip (byte_buffer.from_array 1000 64 0 false))._limit) ∧
      position 1 65535 (flip (byte_buffer.from_array 1000 64 0 false))
        = (0, flip (byte_buffer.from_array 1000 64 0 false))) := by
  decide

/-- C9 (amended): when `new_pos * sizeof( T )` and the overage
`new_pos * sizeof( T ) - limit + 1` both fit in a `uint16_t`,
`position< T >( new_pos )` returns 0 if and only if
`new_pos * sizeof( T ) < limit`, in which case the position becomes
`new_pos * sizeof( T )`; otherwise it returns the strictly positive overage
`new_pos * sizeof( T ) - limit + 1` and leaves the buffer unchanged; the
limit is never modified. -/
theorem position_setter_spec (s np : Nat) (b : byte_buffer) (hfit : np * s ≤ 65535)
    (hov : np * s - b._limit + 1 ≤ 65535) :
    ((position s np b).1 = 0 ↔ np * s < b._limit) ∧
    (np * s < b._limit → (position s np b).2 = { b with _position := np * s }) ∧
    (b._limit ≤ np * s →
      (position s np b).1 = np * s - b._limit + 1 ∧ 0 < (position s np b).1 ∧
      (position s np b).2 = b) ∧
    (position s np b).2._limit = b._limit := by
  by_cases h : np * s < b._limit
  · rw [position_fits s np b hfit h]
    exact ⟨by simp [h], fun _ => rfl, fun h2 => by omega, rfl⟩
  · have h2 : b._limit ≤ np * s := by omega
    rw [position_over s np b hfit (by omega) h2]
    refine ⟨?_, fun h3 => by omega, fun _ => ⟨rfl, ?_, rfl⟩, rfl⟩
    · simp only
      omega
    · simp only
      omega

/-- The amended C9 on the example program: `position< int >( 10 )` on a buffer
of 64 bytes. -/
theorem position_setter_spec_witness :
    ((position 4 10 (byte_buffer.from_array 1000 64 0 false)).1 = 0
      ↔ 10 * 4 < (byte_buffer.from_array 1000 64 0 false)._limit) ∧
    (10 * 4 < (byte_buffer.from_array 1000 64 0 false)._limit →
      (position 4 10 (byte_buffer.from_array 1000 64 0 false)).2
        = { byte_buffer.from_array 1000 64 0 false with _position := 10 * 4 }) ∧
    ((byte_buffer.from_array 1000 64 0 false)._limit ≤ 10 * 4 →
      (position 4 10 (byte_buffer.from_array 1000 64 0 false)).1
        = 10 * 4 - (byte_buffer.from_array 1000 64 0 false)._limit + 1 ∧
      0 < (position 4 10 (byte_buffer.from_array 1000 64 0 false)).1 ∧
      (position 4 10 (byte_buffer.from_array 1000 64 0 false)).2
        = byte_buffer.from_array 1000 64 0 false) ∧
    (position 4 10 (byte_buffer.from_array 1000 64 0 false)).2._limit
      = (byte_buffer.from_array 1000 64 0 false)._limit :=
  position_setter_spec 4 10 (byte_buffer.from_array 1000 64 0 false)
    (by decide) (by decide)

/-- C10: on a fresh buffer of 64 bytes, `position< ubyte_t >( 64 )`, a new
position equal to the limit (`64 <= limit< ubyte_t >()`), returns 1 and leaves
the position at 0: the setter compares with `<`. -/
theorem position_at_limit_rejected :
    64 ≤ limit_get 1 (byte_buffer.from_array 1000 64 0 false) ∧
    position 1 64 (byte_buffer.from_array 1000 64 0 false)
      = (1, byte_buffer.from_array 1000 64 0 false) := by
  decide

/-- C16: from any state `clear()` gives position 0 and limit equal to the
capacity, which is the cursor state of a buffer newly constructed from a
region (for every capacity and offset), and it leaves the capacity, the
read-only flag, the base pointer and the memory unchanged. -/
theorem clear_spec (m : Mem) (b : byte_buffer) (buffptr cap offset : Nat) (ro : Bool) :
    step .clear (m, b) = (m, clear b) ∧
    (clear b)._position = 0 ∧
    (clear b)._limit = b._capacity ∧
    (clear b)._position = (byte_buffer.from_array buffptr b._capacity offset ro)._position ∧
    (clear b)._limit = (byte_buffer.from_array buffptr b._capacity offset ro)._limit ∧
    (byte_buffer.from_array buffptr cap offset ro)._position = 0 ∧
    (byte_buffer.from_array buffptr cap offset ro)._limit
      = (byte_buffer.from_array buffptr cap offset ro)._capacity ∧
    (clear b)._capacity = b._capacity ∧
    (clear b)._read_only = b._read_only ∧
    (clear b)._buffptr = b._buffptr :=
  ⟨rfl, rfl, rfl, rfl, rfl, rfl, rfl, rfl, rfl, rfl⟩

/-- C17: from any state `flip()` sets the limit to the old position and the
position to 0, so that `remaining< ubyte_t >()` afterwards is the old
position; the capacity, the read-only flag, the base pointer and the memory
are unchanged. -/
theorem flip_spec (m : Mem) (b : byte_buffer) (hb : b.wf) :
    step .flip (m, b) = (m, flip b) ∧
    (flip b)._limit = b._position ∧
    (flip b)._position = 0 ∧
    remaining 1 (flip b) = b._position ∧
    (flip b)._capacity = b._capacity ∧
    (flip b)._read_only = b._read_only ∧
    (flip b)._buffptr = b._buffptr := by
  obtain ⟨_, hp, _⟩ := hb
  refine ⟨rfl, rfl, rfl, ?_, rfl, rfl, rfl⟩
  simp only [remaining, flip, to_size, U16_MOD]
  omega

/-- The flip of C17 on the example program's state (position 40). -/
theorem flip_spec_witness :
    step .flip (zero_mem, example_state) = (zero_mem, flip example_state) ∧
    (flip example_state)._limit = example_state._position ∧
    (flip example_state)._position = 0 ∧
    remaining 1 (flip example_state) = example_state._position ∧
    (flip example_state)._capacity = example_state._capacity ∧
    (flip example_state)._read_only = example_state._read_only ∧
    (flip example_state)._buffptr = example_state._buffptr :=
  flip_spec zero_mem example_state (by decide)

/-- C12: every failing operation leaves the memory and the buffer (position,
limit, capacity) as they were: a setter `limit< T >` or `position< T >` that
returns non-zero, a `getr` that returns `nullptr`, a single-value `putr` or
`puta` that returns false, a multi-value `putr` or `puta` that returns
non-zero; `geta` is a `const` method and changes nothing whatever it returns. -/
theorem failing_operation_changes_nothing (s n pos arg : Nat) (value : List Nat)
    (values : Nat → List Nat) (m : Mem) (b : byte_buffer) :
    ((limit s arg b).1 ≠ 0 → (limit s arg b).2 = b) ∧
    ((position s arg b).1 ≠ 0 → (position s arg b).2 = b) ∧
    ((getr s n b).1 = none → (getr s n b).2 = b) ∧
    (geta s pos n b = none → step (.geta s pos n) (m, b) = (m, b)) ∧
    ((putr s value m b).1 = false → (putr s value m b).2 = (m, b)) ∧
    ((puta s pos value m b).1 = false → (puta s pos value m b).2 = (m, b)) ∧
    ((putr_values s values n m b).1 ≠ 0 → (putr_values s values n m b).2 = (m, b)) ∧
    ((puta_values s pos values n m b).1 ≠ 0 →
      (puta_values s pos values n m b).2 = (m, b)) := by
  refine ⟨?_, ?_, ?_, fun _ => rfl, ?_, ?_, ?_, ?_⟩
  · simp only [limit]
    split
    · intro h
      exact absurd rfl h
    · intro _
      rfl
  · simp only [position]
    split
    · intro h
      exact absurd rfl h
    · intro _
      rfl
  · simp only [getr]
    split
    · intro h
      exact absurd h (by simp)
    · intro _
      rfl
  · simp only [putr]
    split
    · intro h
      exact absurd h (by simp)
    · intro _
      rfl
  · simp only [puta]
    split
    · intro h
      exact absurd h (by simp)
    · intro _
      rfl
  · simp only [putr_values]
    split
    · intro _
      rfl
    · split
      · intro h
        exact absurd rfl h
      · intro _
        rfl
  · simp only [puta_values]
    split
    · intro _
      rfl
    · split
      · intro h
        exact absurd rfl h
      · intro _
        rfl

/-- The failing calls of C12 on the example program's state (position 40,
limit 48, capacity 64) with an element type of 16 bytes. -/
theorem failing_operation_changes_nothing_witness :
    (limit 16 5 example_state).2 = example_state ∧
    (position 16 5 example_state).2 = example_state ∧
    (getr 16 1 example_state).2 = example_state ∧
    step (.geta 16 40 1) (zero_mem, example_state) = (zero_mem, example_state) ∧
    (putr 16 (List.replicate 16 7) zero_mem example_state).2
      = (zero_mem, example_state) ∧
    (puta 16 40 (List.replicate 16 7) zero_mem example_state).2
      = (zero_mem, example_state) ∧
    (putr_values 16 (fun _ => List.replicate 16 7) 1 zero_mem example_state).2
      = (zero_mem, example_state) ∧
    (puta_values 16 40 (fun _ => List.replicate 16 7) 1 zero_mem example_state).2
      = (zero_mem, example_state) :=
  have h := failing_operation_changes_nothing 16 1 40 5 (List.replicate 16 7)
    (fun _ => List.replicate 16 7) zero_mem example_state
  ⟨h.1 (by decide), h.2.1 (by decide), h.2.2.1 (by decide), h.2.2.2.1 (by decide),
   h.2.2.2.2.1 (by decide), h.2.2.2.2.2.1 (by decide), h.2.2.2.2.2.2.1 (by decide),
   h.2.2.2.2.2.2.2 (by decide)⟩

/-- C13: the view derived from a parent with the request
`(capacity, offset, read_only)` has capacity `min( parent capacity, capacity )`
(so `capacity< ubyte_t >()` is the parent's capacity whenever the request
exceeds it), limit equal to that capacity, position 0, read-only flag
`parent read_only || read_only` and base `parent base + offset`.  The
constructor only reads the parent: it returns the view and nothing else. -/
theorem view_spec (parent : byte_buffer) (cap offset : Nat) (ro : Bool)
    (hp : parent.wf) :
    (byte_buffer.from_buffer parent cap offset ro)._capacity = min parent._capacity cap ∧
    (parent._capacity < cap →
      capacity 1 (byte_buffer.from_buffer parent cap offset ro) = parent._capacity) ∧
    (byte_buffer.from_buffer parent cap offset ro)._limit = min parent._capacity cap ∧
    (byte_buffer.from_buffer parent cap offset ro)._position = 0 ∧
    (byte_buffer.from_buffer parent cap offset ro)._read_only
      = (parent._read_only || ro) ∧
    (byte_buffer.from_buffer parent cap offset ro)._buffptr
      = parent._buffptr + offset := by
  obtain ⟨hc, _, _⟩ := hp
  have hmin : (if parent._capacity < cap then parent._capacity else cap)
      = min parent._capacity cap := by
    split <;> omega
  refine ⟨hmin, ?_, hmin, rfl, rfl, rfl⟩
  intro h
  simp only [capacity, byte_buffer.from_buffer, if_pos h, to_size, U16_MOD]
  omega

/-- The view of C13 requested with capacity 100 on the example program's
buffer of 64 bytes. -/
theorem view_spec_witness :
    (byte_buffer.from_buffer example_state 100 10 true)._capacity
      = min example_state._capacity 100 ∧
    capacity 1 (byte_buffer.from_buffer example_state 100 10 true)
      = example_state._capacity ∧
    (byte_buffer.from_buffer example_state 100 10 true)._limit
      = min example_state._capacity 100 ∧
    (byte_buffer.from_buffer example_state 100 10 true)._position = 0 ∧
    (byte_buffer.from_buffer example_state 100 10 true)._read_only
      = (example_state._read_only || true) ∧
    (byte_buffer.from_buffer example_state 100 10 true)._buffptr
      = example_state._buffptr + 10 :=
  have h := view_spec example_state 100 10 true (by decide)
  ⟨h.1, h.2.1 (by decide), h.2.2.1, h.2.2.2.1, h.2.2.2.2.1, h.2.2.2.2.2⟩

/-- C14 (as stated, refuted): the view of capacity 64 at offset 10 of a buffer
of 64 bytes has capacity 64, so it ends 10 bytes past its parent's region. -/
theorem view_past_parent_counterexample :
    (byte_buffer.from_buffer (byte_buffer.from_array 1000 64 0 false) 64 10 false)._capacity
      = 64 ∧
    ¬ (10 + (byte_buffer.from_buffer (byte_buffer.from_array 1000 64 0 false)
          64 10 false)._capacity
        ≤ (byte_buffer.from_array 1000 64 0 false)._capacity) := by
  decide

/-- C14 (amended): the capacity of a view is at most the capacity of its
parent and at most the requested capacity; the offset is not taken into
account, and the view stays within its parent's region,
`offset + view capacity <= parent capacity`, when the request does,
`offset + capacity <= parent capacity`. -/
theorem view_capacity_bound (parent : byte_buffer) (cap offset : Nat) (ro : Bool) :
    (byte_buffer.from_buffer parent cap offset ro)._capacity ≤ parent._capacity ∧
    (byte_buffer.from_buffer parent cap offset ro)._capacity ≤ cap ∧
    (offset + cap ≤ parent._capacity →
      offset + (byte_buffer.from_buffer parent cap offset ro)._capacity
        ≤ parent._capacity) := by
  simp only [byte_buffer.from_buffer]
  refine ⟨?_, ?_, ?_⟩
  · split <;> omega
  · split <;> omega
  · intro h
    split <;> omega

/-- The amended C14 on a view of 20 bytes at offset 10 of the example
program's buffer of 64 bytes. -/
theorem view_capacity_bound_witness :
    (byte_buffer.from_buffer example_state 20 10 false)._capacity
      ≤ example_state._capacity ∧
    (byte_buffer.from_buffer example_state 20 10 false)._capacity ≤ 20 ∧
    10 + (byte_buffer.from_buffer example_state 20 10 false)._capacity
      ≤ example_state._capacity :=
  have h := view_capacity_bound example_state 20 10 false
  ⟨h.1, h.2.1, h.2.2 (by decide)⟩

/-- C18: on a fresh buffer of 64 bytes (not read-only) the span of one 4-byte
value at offset 60 lies within the limit, `60 + 1 * 4 <= 64`; the
single-value `puta` accepts the write and `geta` accepts the read, but the
multi-value `puta< int >( 60, values, 1 )` stores nothing: its test is
`pos < _limit - write_size`. -/
theorem puta_values_rejects_span_ending_at_limit :
    (byte_buffer.from_array 1000 64 0 false)._read_only = false ∧
    60 + 1 * 4 ≤ (byte_buffer.from_array 1000 64 0 false)._limit ∧
    puta_values 4 60 (fun _ => [1, 0, 0, 0]) 1 zero_mem
        (byte_buffer.from_array 1000 64 0 false)
      = (65476, zero_mem, byte_buffer.from_array 1000 64 0 false) ∧
    (puta 4 60 [1, 0, 0, 0] zero_mem (byte_buffer.from_array 1000 64 0 false)).1 = true ∧
    (puta 4 60 [1, 0, 0, 0] zero_mem (byte_buffer.from_array 1000 64 0 false)).2.1 1060
      = 1 ∧
    geta 4 60 1 (byte_buffer.from_array 1000 64 0 false) = some 1060 := by
  refine ⟨by decide, by decide, ?_, by decide, by decide, by decide⟩
  rfl

/-- C20: the view built by `byte_buffer b2( b, 10, true )` is not read-only and
its first byte lies 1 byte, not 10 bytes, into the parent buffer; 10 is its
capacity.  A multi-value `putr` through it writes the parent's byte 1. -/
theorem example_view_is_writable_at_offset_one :
    example_b2._read_only = false ∧
    example_b2._buffptr = example_state._buffptr + 1 ∧
    example_b2._buffptr ≠ example_state._buffptr + 10 ∧
    example_b2._capacity = 10 ∧
    (putr_values 1 (fun _ => [7]) 1 zero_mem example_b2).1 = 0 ∧
    (putr_values 1 (fun _ => [7]) 1 zero_mem example_b2).2.1
      (example_state._buffptr + 1) = 7 := by
  decide

/-- C11: on a buffer of capacity 2, `putr< int >( 42 )` returns true and moves
the position to 4; `flip()` then sets the limit to 4, above the capacity. -/
theorem limit_above_capacity_reached :
    (putr 4 [42, 0, 0, 0] zero_mem (byte_buffer.from_array 1000 2 0 false)).1 = true ∧
    (run [.putr 4 [42, 0, 0, 0], .flip]
      (zero_mem, byte_buffer.from_array 1000 2 0 false)).2._limit = 4 ∧
    (run [.putr 4 [42, 0, 0, 0], .flip]
      (zero_mem, byte_buffer.from_array 1000 2 0 false)).2._capacity = 2 ∧
    ¬ ((run [.putr 4 [42, 0, 0, 0], .flip]
        (zero_mem, byte_buffer.from_array 1000 2 0 false)).2._limit
      ≤ (run [.putr 4 [42, 0, 0, 0], .flip]
        (zero_mem, byte_buffer.from_array 1000 2 0 false)).2._capacity) := by
  decide

/-- C15: on a buffer of 64 bytes, after `position< ubyte_t >( 10 )` and
`limit< ubyte_t >( 5 )` (both return 0) the position is 10 and the limit 5:
no byte fits before the limit, yet `remaining< ubyte_t >()` is 65531 and
`has_remaining< ubyte_t >()` is true. -/
theorem remaining_wraps_past_limit :
    (position 1 10 (byte_buffer.from_array 1000 64 0 false)).1 = 0 ∧
    (limit 1 5 (position 1 10 (byte_buffer.from_array 1000 64 0 false)).2).1 = 0 ∧
    (run [.position 1 10, .limit 1 5]
      (zero_mem, byte_buffer.from_array 1000 64 0 false)).2._position = 10 ∧
    (run [.position 1 10, .limit 1 5]
      (zero_mem, byte_buffer.from_array 1000 64 0 false)).2._limit = 5 ∧
    remaining 1 (run [.position 1 10, .limit 1 5]
      (zero_mem, byte_buffer.from_array 1000 64 0 false)).2 = 65531 ∧
    has_remaining 1 (run [.position 1 10, .limit 1 5]
      (zero_mem, byte_buffer.from_array 1000 64 0 false)).2 = true ∧
    ¬ ((run [.position 1 10, .limit 1 5]
        (zero_mem, byte_buffer.from_array 1000 64 0 false)).2._position + 1
      ≤ (run [.position 1 10, .limit 1 5]
        (zero_mem, byte_buffer.from_array 1000 64 0 false)).2._limit) := by
  decide

/-- C19: on a buffer of 64 bytes, `position< ubyte_t >( 10 )` then
`limit< ubyte_t >( 5 )` leaves the position 10 above the limit 5; and
`flip()` then `putr< ubyte_t >( 7 )` leaves the position 1 above the limit 0. -/
theorem position_above_limit_reached :
    (run [.position 1 10, .limit 1 5]
      (zero_mem, byte_buffer.from_array 1000 64 0 false)).2._position = 10 ∧
    (run [.position 1 10, .limit 1 5]
      (zero_mem, byte_buffer.from_array 1000 64 0 false)).2._limit = 5 ∧
    (run [.flip, .putr 1 [7]]
      (zero_mem, byte_buffer.from_array 1000 64 0 false)).2._position = 1 ∧
    (run [.flip, .putr 1 [7]]
      (zero_mem, byte_buffer.from_array 1000 64 0 false)).2._limit = 0 := by
  decide

end ByteBuffer
